import Mathlib

/-!
Shallow embedding of `src/main.rs`: a pipeline that opens the gzip file
`test-multi.txt.gz`, wraps it in a `MultiGzDecoder` and a `BufReader`,
iterates over its lines with a running counter, writes each line followed
by a single newline to a `BufWriter` over stdout, and flushes once at the
end.  File-open and per-line read failures panic with contextual messages;
write/flush failures propagate as ordinary `Err` results from `main`.

Bytes are modelled as `Nat` (values < 256 on real inputs; the definitions
only ever compare against concrete byte values, so no bound is needed).
-/

/-- A byte of the decompressed stream. -/
abbrev Byte := Nat

/-- `0x0A`, the line-feed byte that `BufRead::lines` splits on. -/
def nl : Byte := 10

/-- `0x0D`, the carriage-return byte stripped from a `\r\n` terminator. -/
def cr : Byte := 13

/-- Modelled from the spec: `BufRead::lines` segmentation of the decompressed
byte stream.  Each segment extends up to and including the first `\n`; a final
segment with no `\n` (the trailing partial line) is still produced, and an
empty stream yields no segments. -/
def splitSegments : List Byte → List (List Byte)
  | [] => []
  | b :: rest =>
    if b = nl then [nl] :: splitSegments rest
    else
      match splitSegments rest with
      | [] => [[b]]
      | seg :: segs => (b :: seg) :: segs

/-- Modelled from the spec: the terminator stripping done by `Lines::next`:
drop a trailing `\n` if present, and then a trailing `\r` if present (so both
`\n` and `\r\n` terminators are removed). -/
def stripTerminator (seg : List Byte) : List Byte :=
  let s1 := if seg.getLast? = some nl then seg.dropLast else seg
  if s1.getLast? = some cr then s1.dropLast else s1

/-- Whether a byte is a UTF-8 continuation byte (`0x80`–`0xBF`). -/
def isCont (b : Byte) : Bool := 0x80 ≤ b && b ≤ 0xBF

/-- Modelled from the spec: UTF-8 validity of a byte sequence (RFC 3629),
as checked by `String::from_utf8` when `read_line` appends to its buffer. -/
def utf8Valid : List Byte → Bool
  | [] => true
  | b :: rest =>
    if b ≤ 0x7F then utf8Valid rest
    else if 0xC2 ≤ b && b ≤ 0xDF then
      match rest with
      | c1 :: r => isCont c1 && utf8Valid r
      | [] => false
    else if b = 0xE0 then
      match rest with
      | c1 :: c2 :: r => (0xA0 ≤ c1 && c1 ≤ 0xBF) && isCont c2 && utf8Valid r
      | _ => false
    else if (0xE1 ≤ b && b ≤ 0xEC) || b = 0xEE || b = 0xEF then
      match rest with
      | c1 :: c2 :: r => isCont c1 && isCont c2 && utf8Valid r
      | _ => false
    else if b = 0xED then
      match rest with
      | c1 :: c2 :: r => (0x80 ≤ c1 && c1 ≤ 0x9F) && isCont c2 && utf8Valid r
      | _ => false
    else if b = 0xF0 then
      match rest with
      | c1 :: c2 :: c3 :: r =>
        (0x90 ≤ c1 && c1 ≤ 0xBF) && isCont c2 && isCont c3 && utf8Valid r
      | _ => false
    else if 0xF1 ≤ b && b ≤ 0xF3 then
      match rest with
      | c1 :: c2 :: c3 :: r => isCont c1 && isCont c2 && isCont c3 && utf8Valid r
      | _ => false
    else if b = 0xF4 then
      match rest with
      | c1 :: c2 :: c3 :: r =>
        (0x80 ≤ c1 && c1 ≤ 0x8F) && isCont c2 && isCont c3 && utf8Valid r
      | _ => false
    else false

/-- One item produced by the `reader.lines()` iterator: either a decoded line
with its terminator stripped, or a read/decode error. -/
inductive LineItem where
  | ok (content : List Byte)
  | err (msg : String)
  deriving Repr, DecidableEq

/-- The error message `String::from_utf8` failures surface through `read_line`. -/
def utf8ErrMsg : String := "stream did not contain valid UTF-8"

/-- Turn one raw segment into the corresponding iterator item: UTF-8 validate
the bytes (terminator included, as `read_line` does), then strip the
terminator. -/
def segToItem (seg : List Byte) : LineItem :=
  if utf8Valid seg then .ok (stripTerminator seg) else .err utf8ErrMsg

/-- Does the segment end at a line boundary (i.e. with `\n`)? -/
def endsWithNl (seg : List Byte) : Bool := seg.getLast? = some nl

/-- Modelled from the spec: the full sequence of items the `lines()` iterator
produces for a decompressed stream `bytes`, where `tailErr = some e` means the
underlying decoder fails with error `e` after producing `bytes` (e.g. a
truncated gzip stream) instead of reporting end-of-stream.  A mid-line decoder
failure surfaces as an `err` item in place of the trailing partial line. -/
def linesItems (bytes : List Byte) (tailErr : Option String) : List LineItem :=
  match tailErr with
  | none => (splitSegments bytes).map segToItem
  | some e =>
    ((splitSegments bytes).filter endsWithNl).map segToItem ++ [.err e]

/-- An observable I/O event of the run: a `write_all` call on the `BufWriter`
with the given bytes, or the final `flush`. -/
inductive Event where
  | write (bytes : List Byte)
  | flush
  deriving Repr, DecidableEq

/-- Is the event a write? -/
def Event.isWrite : Event → Bool
  | .write _ => true
  | .flush => false

/-- The bytes carried by the write events of a trace, concatenated: the
content of standard output. -/
def outputBytes (tr : List Event) : List Byte :=
  (tr.map fun ev => match ev with | .write bs => bs | .flush => []).flatten

/-- How the process terminates: normal `Ok(())` return, a `panic!`, or an
`Err` propagated out of `main` by `?`. -/
inductive Outcome where
  | success
  | panicked (msg : String)
  | errored (msg : String)
  deriving Repr, DecidableEq

/-- The abstract I/O environment a run is executed against:
`openResult` is the outcome of `File::open` together with (on success) the
decompressed contents of each gzip member of the file; `tailErr` injects a
decoder failure after the stream (e.g. truncation); `writeErr k` is the error,
if any, of the `k`-th `write_all` call; `flushErr` is the error, if any, of the
final `flush`. -/
structure Env where
  openResult : Except String (List (List Byte))
  tailErr : Option String
  writeErr : Nat → Option String
  flushErr : Option String

/-- The fixed input path hard-coded in `main`. -/
def mainFilename : String := "test-multi.txt.gz"

/-- The panic message of `open_reading_gzip` on a failed `File::open`. -/
def openMsg (filename err : String) : String :=
  "Cannnot open file \x27" ++ filename ++ "\x27, Error: " ++ err

/-- The panic message of `main` when extracting a line fails. -/
def lineMsg (counter : Nat) (filename err : String) : String :=
  "Cannnot reading the " ++ toString counter ++ "th line of " ++ filename ++
    ", Error: " ++ err

/-- The result of the `for line in reader.lines()` loop. -/
structure LoopResult where
  /-- The write events issued during the loop, in order. -/
  trace : List Event
  /-- The value of `counter_lines` at each line inspection (just after the
  increment), in order. -/
  counters : List Nat
  /-- The final value of `counter_lines`. -/
  counter : Nat
  /-- `some o` if the loop aborted the run (panic or propagated write error). -/
  halted : Option Outcome

/-- The loop body of `main`, iterated over the items of the lines iterator:
increment the counter, panic on an `err` item, otherwise `write_all` the line
content plus `\n`, propagating a write failure as `Err`. -/
def runLines (filename : String) (writeErr : Nat → Option String) :
    List LineItem → Nat → Nat → LoopResult
  | [], counter, _ => ⟨[], [], counter, none⟩
  | item :: rest, counter, writeIdx =>
    let counter := counter + 1
    match item with
    | .err e =>
      ⟨[], [counter], counter, some (.panicked (lineMsg counter filename e))⟩
    | .ok content =>
      match writeErr writeIdx with
      | some e => ⟨[], [counter], counter, some (.errored e)⟩
      | none =>
        let r := runLines filename writeErr rest counter (writeIdx + 1)
        ⟨.write (content ++ [nl]) :: r.trace, counter :: r.counters,
          r.counter, r.halted⟩

/-- The overall result of a run of the program. -/
structure RunResult where
  /-- All I/O events on standard output, in order. -/
  trace : List Event
  /-- The counter values observed at each line inspection. -/
  counters : List Nat
  /-- The final value of `counter_lines`. -/
  counter : Nat
  /-- How the process terminated. -/
  outcome : Outcome

/-- The whole program (`main` of `src/main.rs`), as a function of the I/O
environment.  Modelled from the spec: the `MultiGzDecoder` presents the
concatenated gzip members as one logical decompressed byte stream, so the
stream the `BufReader` sees is the concatenation of the members' contents. -/
def runMain (env : Env) : RunResult :=
  match env.openResult with
  | .error e => ⟨[], [], 0, .panicked (openMsg mainFilename e)⟩
  | .ok members =>
    let bytes := members.flatten
    let items := linesItems bytes env.tailErr
    let r := runLines mainFilename env.writeErr items 0 0
    match r.halted with
    | some o => ⟨r.trace, r.counters, r.counter, o⟩
    | none =>
      match env.flushErr with
      | some e => ⟨r.trace, r.counters, r.counter, .errored e⟩
      | none => ⟨r.trace ++ [.flush], r.counters, r.counter, .success⟩

/-- The environment of a run in which all I/O succeeds and the file holds the
given gzip members. -/
def okEnv (members : List (List Byte)) : Env :=
  ⟨.ok members, none, fun _ => none, none⟩

/-- A source line together with its original terminator style:
`(content, false)` is terminated by `\n`, `(content, true)` by `\r\n`. -/
def encodeLine (p : List Byte × Bool) : List Byte :=
  p.1 ++ (if p.2 then [cr, nl] else [nl])

/-- A decompressed stream assembled from terminated source lines. -/
def encodeLines (ls : List (List Byte × Bool)) : List Byte :=
  (ls.map encodeLine).flatten

/-! ### Helper lemmas about segmentation and terminator stripping -/

theorem splitSegments_ne_nil (b : Byte) (rest : List Byte) :
    splitSegments (b :: rest) ≠ [] := by
  simp only [splitSegments]
  split
  · simp
  · split <;> simp

theorem splitSegments_append_nl (c rest : List Byte) (hc : nl ∉ c) :
    splitSegments (c ++ nl :: rest) = (c ++ [nl]) :: splitSegments rest := by
  induction c with
  | nil => simp [splitSegments]
  | cons b c ih =>
    have hb : ¬(b = nl) := fun h => hc (h ▸ List.mem_cons_self b c)
    have hc' : nl ∉ c := fun h => hc (List.mem_cons_of_mem _ h)
    simp only [List.cons_append, splitSegments, if_neg hb, List.append_eq, ih hc']

theorem splitSegments_no_nl (c : List Byte) (hc : nl ∉ c) (hne : c ≠ []) :
    splitSegments c = [c] := by
  induction c with
  | nil => exact absurd rfl hne
  | cons b c ih =>
    have hb : ¬(b = nl) := fun h => hc (h ▸ List.mem_cons_self b c)
    have hc' : nl ∉ c := fun h => hc (List.mem_cons_of_mem _ h)
    by_cases h : c = []
    · subst h; simp [splitSegments, hb]
    · simp only [splitSegments, if_neg hb, ih hc' h]

theorem stripTerminator_concat_nl (c : List Byte) (hcr : c.getLast? ≠ some cr) :
    stripTerminator (c ++ [nl]) = c := by
  simp [stripTerminator, List.getLast?_concat, List.dropLast_concat, hcr]

theorem stripTerminator_concat_crnl (c : List Byte) :
    stripTerminator (c ++ [cr, nl]) = c := by
  have h : c ++ [cr, nl] = (c ++ [cr]) ++ [nl] := by simp
  rw [h]
  simp [stripTerminator, List.getLast?_concat, List.dropLast_concat]

/-! ### Helper lemmas about the main loop -/

theorem runLines_append_ok (f : String) (segs : List (List Byte))
    (items : List LineItem) (c0 w0 : Nat)
    (hv : ∀ s ∈ segs, utf8Valid s = true) :
    runLines f (fun _ => none) (segs.map segToItem ++ items) c0 w0 =
      { trace := (segs.map fun s => Event.write (stripTerminator s ++ [nl])) ++
          (runLines f (fun _ => none) items (c0 + segs.length) (w0 + segs.length)).trace,
        counters := List.range' (c0 + 1) segs.length ++
          (runLines f (fun _ => none) items (c0 + segs.length) (w0 + segs.length)).counters,
        counter := (runLines f (fun _ => none) items (c0 + segs.length) (w0 + segs.length)).counter,
        halted := (runLines f (fun _ => none) items (c0 + segs.length) (w0 + segs.length)).halted } := by
  induction segs generalizing c0 w0 with
  | nil => simp [List.range']
  | cons s segs ih =>
    have hs : utf8Valid s = true := hv s (List.mem_cons_self _ _)
    have hv' : ∀ t ∈ segs, utf8Valid t = true :=
      fun t ht => hv t (List.mem_cons_of_mem _ ht)
    have hseg : segToItem s = .ok (stripTerminator s) := by simp [segToItem, hs]
    simp only [List.map_cons, List.cons_append, hseg, runLines, List.append_eq]
    rw [ih (c0 + 1) (w0 + 1) hv']
    have h1 : c0 + 1 + segs.length = c0 + (segs.length + 1) := by omega
    have h2 : w0 + 1 + segs.length = w0 + (segs.length + 1) := by omega
    simp [h1, h2, List.length_cons, List.range'_succ]

theorem runLines_shape (f : String) (we : Nat → Option String)
    (items : List LineItem) (c0 w0 : Nat) :
    (runLines f we items c0 w0).counters =
      List.range' (c0 + 1) (runLines f we items c0 w0).counters.length ∧
    (runLines f we items c0 w0).counter =
      c0 + (runLines f we items c0 w0).counters.length ∧
    (∀ ev ∈ (runLines f we items c0 w0).trace, ev.isWrite = true) ∧
    (∀ o, (runLines f we items c0 w0).halted = some o →
      (∃ m, o = .panicked m) ∨ (∃ m, o = .errored m)) := by
  induction items generalizing c0 w0 with
  | nil => simp [runLines]
  | cons it items ih =>
    cases it with
    | err e =>
      refine ⟨by simp [runLines, List.range'], by simp [runLines], ?_, ?_⟩
      · simp [runLines]
      · intro o ho
        simp only [runLines] at ho
        exact Or.inl ⟨_, by injection ho with h; exact h.symm⟩
    | ok content =>
      cases h : we w0 with
      | some e =>
        refine ⟨by simp [runLines, h, List.range'], by simp [runLines, h], ?_, ?_⟩
        · simp [runLines, h]
        · intro o ho
          simp only [runLines, h] at ho
          exact Or.inr ⟨_, by injection ho with h2; exact h2.symm⟩
      | none =>
        obtain ⟨hcnt, hctr, htr, hhl⟩ := ih (c0 + 1) (w0 + 1)
        refine ⟨?_, ?_, ?_, ?_⟩
        · simp only [runLines, h, List.length_cons, List.range'_succ]
          exact congrArg _ hcnt
        · simp only [runLines, h, List.length_cons]
          omega
        · intro ev hev
          simp only [runLines, h, List.mem_cons] at hev
          rcases hev with rfl | hev
          · rfl
          · exact htr ev hev
        · intro o ho
          simp only [runLines, h] at ho
          exact hhl o ho

/-! ### Helper lemmas about whole runs -/

theorem chain_le_range' (n s : Nat) :
    List.Chain' (fun a b => a ≤ b) (List.range' s n) := by
  induction n generalizing s with
  | zero => simp
  | succ m ih =>
    rw [List.range'_succ]
    cases m with
    | zero => simp
    | succ k =>
      rw [List.range'_succ]
      exact List.chain'_cons.mpr ⟨by omega, by rw [← List.range'_succ]; exact ih (s + 1)⟩

theorem runMain_ok_fields (members : List (List Byte)) (te : Option String)
    (we : Nat → Option String) (fe : Option String) :
    (runMain ⟨.ok members, te, we, fe⟩).counters =
      (runLines mainFilename we (linesItems members.flatten te) 0 0).counters ∧
    (runMain ⟨.ok members, te, we, fe⟩).counter =
      (runLines mainFilename we (linesItems members.flatten te) 0 0).counter := by
  simp only [runMain]
  rcases h : (runLines mainFilename we (linesItems members.flatten te) 0 0).halted with _ | o
  · cases fe <;> simp [h]
  · simp [h]

theorem runMain_ok_stream (bytes : List Byte)
    (hv : ∀ s ∈ splitSegments bytes, utf8Valid s = true) :
    runMain (okEnv [bytes]) =
      { trace := ((splitSegments bytes).map fun s =>
            Event.write (stripTerminator s ++ [nl])) ++ [Event.flush],
        counters := List.range' 1 (splitSegments bytes).length,
        counter := (splitSegments bytes).length,
        outcome := .success } := by
  have h := runLines_append_ok mainFilename (splitSegments bytes) [] 0 0 hv
  simp only [List.append_nil, runLines] at h
  simp only [runMain, okEnv, linesItems, List.flatten_cons, List.flatten_nil,
    List.append_nil, h]
  simp

theorem splitSegments_encodeLines (ls : List (List Byte × Bool))
    (h : ∀ p ∈ ls, nl ∉ p.1) :
    splitSegments (encodeLines ls) = ls.map encodeLine := by
  induction ls with
  | nil => simp [encodeLines, splitSegments]
  | cons p ls ih =>
    have hp : nl ∉ p.1 := h p (List.mem_cons_self _ _)
    have h' : ∀ q ∈ ls, nl ∉ q.1 := fun q hq => h q (List.mem_cons_of_mem _ hq)
    have hstream : encodeLines (p :: ls) =
        (p.1 ++ (if p.2 then [cr] else [])) ++ nl :: encodeLines ls := by
      cases hb : p.2 <;> simp [encodeLines, encodeLine, hb]
    have hnotin : nl ∉ p.1 ++ (if p.2 then [cr] else []) := by
      intro hmem
      rcases List.mem_append.mp hmem with hmem | hmem
      · exact hp hmem
      · cases hb : p.2 <;> simp [hb] at hmem
        exact absurd hmem (by simp [nl, cr])
    have henc : encodeLine p = (p.1 ++ (if p.2 then [cr] else [])) ++ [nl] := by
      cases hb : p.2 <;> simp [encodeLine, hb]
    rw [hstream, splitSegments_append_nl _ _ hnotin, ih h', List.map_cons, henc]

theorem stripTerminator_encodeLine (p : List Byte × Bool)
    (hcr : p.1.getLast? ≠ some cr) :
    stripTerminator (encodeLine p) = p.1 := by
  cases hb : p.2 with
  | false =>
    have : encodeLine p = p.1 ++ [nl] := by simp [encodeLine, hb]
    rw [this, stripTerminator_concat_nl _ hcr]
  | true =>
    have : encodeLine p = p.1 ++ [cr, nl] := by simp [encodeLine, hb]
    rw [this, stripTerminator_concat_crnl]

theorem outputBytes_writes (segs : List (List Byte)) (g : List Byte → List Byte) :
    outputBytes ((segs.map fun s => Event.write (g s)) ++ [Event.flush]) =
      (segs.map g).flatten := by
  simp [outputBytes, List.map_append, List.map_map, Function.comp_def]

theorem flatten_getLast_nl (ps : List (List Byte)) (hne : ps ≠ [])
    (h : ∀ p ∈ ps, p.getLast? = some nl) : ps.flatten.getLast? = some nl := by
  induction ps with
  | nil => exact absurd rfl hne
  | cons p ps ih =>
    by_cases hps : ps = []
    · subst hps
      simpa using h p (List.mem_cons_self _ _)
    · have hq : ps.flatten ≠ [] := by
        cases ps with
        | nil => exact absurd rfl hps
        | cons q qs =>
          have hqnl : q.getLast? = some nl := h q (by simp)
          have hqne : q ≠ [] := fun hq0 => by simp [hq0] at hqnl
          rw [List.flatten_cons]
          intro h0
          exact hqne (List.append_eq_nil.mp h0).1
      rw [List.flatten_cons, List.getLast?_append_of_ne_nil _ hq]
      exact ih hps fun r hr => h r (List.mem_cons_of_mem _ hr)

/-! ### Claim theorems -/

/-- C1: For every valid single-member gzip input whose decompressed content is
UTF-8 text containing `N` lines, the program writes exactly `N` lines to
standard output, in the original order, each terminated with a single `\n`,
and terminates successfully. -/
theorem single_member_emits_all_lines (content : List Byte) (N : Nat)
    (hv : ∀ s ∈ splitSegments content, utf8Valid s = true)
    (hN : (splitSegments content).length = N) :
    (runMain (okEnv [content])).outcome = .success ∧
    (runMain (okEnv [content])).trace =
      ((splitSegments content).map fun s =>
        Event.write (stripTerminator s ++ [nl])) ++ [Event.flush] ∧
    (runMain (okEnv [content])).trace.countP Event.isWrite = N := by
  rw [runMain_ok_stream content hv]
  refine ⟨rfl, rfl, ?_⟩
  simp [List.countP_append, List.countP_map, Function.comp_def, Event.isWrite,
    List.countP_cons, hN]

/-- Witness for C1 at the concrete two-line stream `"hi\nyo\r\n"`. -/
theorem single_member_emits_all_lines_witness :
    (runMain (okEnv [[104, 105, 10, 121, 111, 13, 10]])).outcome = .success ∧
    (runMain (okEnv [[104, 105, 10, 121, 111, 13, 10]])).trace =
      ((splitSegments [104, 105, 10, 121, 111, 13, 10]).map fun s =>
        Event.write (stripTerminator s ++ [nl])) ++ [Event.flush] ∧
    (runMain (okEnv [[104, 105, 10, 121, 111, 13, 10]])).trace.countP
      Event.isWrite = 2 :=
  single_member_emits_all_lines [104, 105, 10, 121, 111, 13, 10] 2
    (by decide) (by decide)

/-- C2: For every input composed of one or more concatenated gzip members, the
run is identical to the run on the single stream obtained by concatenating the
members' decoded contents, and (when every line is valid) the output is that
single stream line-split, so member boundaries are invisible. -/
theorem multi_member_transparent (ms : List (List Byte)) (te : Option String)
    (we : Nat → Option String) (fe : Option String) :
    runMain ⟨.ok ms, te, we, fe⟩ = runMain ⟨.ok [ms.flatten], te, we, fe⟩ ∧
    ((∀ s ∈ splitSegments ms.flatten, utf8Valid s = true) →
      (runMain (okEnv ms)).trace =
        ((splitSegments ms.flatten).map fun s =>
          Event.write (stripTerminator s ++ [nl])) ++ [Event.flush]) := by
  have heq : ∀ (te' : Option String) (we' : Nat → Option String)
      (fe' : Option String),
      runMain ⟨.ok ms, te', we', fe'⟩ = runMain ⟨.ok [ms.flatten], te', we', fe'⟩ := by
    intro te' we' fe'
    simp only [runMain, List.flatten_cons, List.flatten_nil, List.append_nil]
  refine ⟨heq te we fe, fun hv => ?_⟩
  have h2 : runMain (okEnv ms) = runMain (okEnv [ms.flatten]) := heq none _ none
  rw [h2, runMain_ok_stream _ hv]

/-- Witness for C2 at two concrete members. -/
theorem multi_member_transparent_witness :
    runMain ⟨.ok [[104, 10], [105, 10]], none, fun _ => none, none⟩ =
      runMain ⟨.ok [[[104, 10], [105, 10]].flatten], none, fun _ => none, none⟩ ∧
    ((∀ s ∈ splitSegments [[104, 10], [105, 10]].flatten, utf8Valid s = true) →
      (runMain (okEnv [[104, 10], [105, 10]])).trace =
        ((splitSegments [[104, 10], [105, 10]].flatten).map fun s =>
          Event.write (stripTerminator s ++ [nl])) ++ [Event.flush]) :=
  multi_member_transparent [[104, 10], [105, 10]] none (fun _ => none) none

/-- C3: For lines assembled with either `\n` or `\r\n` terminators, every line
value the iterator produces excludes its terminator and the program writes the
line's content followed by exactly one `\n`, regardless of the original
terminator style. -/
theorem line_terminator_normalized (ls : List (List Byte × Bool))
    (h : ∀ p ∈ ls, nl ∉ p.1 ∧ p.1.getLast? ≠ some cr ∧
      utf8Valid (encodeLine p) = true) :
    (runMain (okEnv [encodeLines ls])).outcome = .success ∧
    (runMain (okEnv [encodeLines ls])).trace =
      (ls.map fun p => Event.write (p.1 ++ [nl])) ++ [Event.flush] := by
  have hsplit := splitSegments_encodeLines ls fun p hp => (h p hp).1
  have hv : ∀ s ∈ splitSegments (encodeLines ls), utf8Valid s = true := by
    rw [hsplit]
    intro s hs
    obtain ⟨p, hp, rfl⟩ := List.mem_map.mp hs
    exact (h p hp).2.2
  rw [runMain_ok_stream _ hv, hsplit]
  refine ⟨rfl, ?_⟩
  have hmap : List.map ((fun s => Event.write (stripTerminator s ++ [nl])) ∘
      encodeLine) ls = List.map (fun p => Event.write (p.1 ++ [nl])) ls :=
    List.map_congr_left fun p hp => by
      simp only [Function.comp_apply, stripTerminator_encodeLine p (h p hp).2.1]
  show ((List.map encodeLine ls).map fun s =>
      Event.write (stripTerminator s ++ [nl])) ++ [Event.flush] = _
  rw [List.map_map, hmap]

/-- Witness for C3 at one `\n`-terminated and one `\r\n`-terminated line. -/
theorem line_terminator_normalized_witness :
    (runMain (okEnv [encodeLines [([104], false), ([121, 111], true)]])).outcome =
      .success ∧
    (runMain (okEnv [encodeLines [([104], false), ([121, 111], true)]])).trace =
      ([([104], false), ([121, 111], true)].map fun p =>
        Event.write (p.1 ++ [nl])) ++ [Event.flush] :=
  line_terminator_normalized [([104], false), ([121, 111], true)] (by decide)

/-- C4: In every run the line counter starts at zero and is incremented exactly
once per produced line before the line is inspected: the sequence of counter
values observed at the line inspections is `1, 2, 3, ...`, hence monotonically
non-decreasing and equal to the 1-based ordinal of the line being handled, and
the final counter equals the number of lines handled. -/
theorem counter_tracks_ordinal (env : Env) :
    (runMain env).counters = List.range' 1 (runMain env).counters.length ∧
    List.Chain' (fun a b => a ≤ b) (runMain env).counters ∧
    (runMain env).counter = (runMain env).counters.length := by
  rcases env with ⟨o, te, we, fe⟩
  cases o with
  | error e => simp [runMain]
  | ok members =>
    obtain ⟨h1, h2⟩ := runMain_ok_fields members te we fe
    obtain ⟨hcnt, hctr, _, _⟩ :=
      runLines_shape mainFilename we (linesItems members.flatten te) 0 0
    rw [h1, h2]
    refine ⟨?_, ?_, ?_⟩
    · conv_lhs => rw [hcnt]
    · rw [hcnt]; exact chain_le_range' _ _
    · omega

/-- C5: If decoding the `N`-th line fails (here: invalid UTF-8 in the `N`-th
segment), the process panics with a diagnostic carrying the 1-based ordinal
`N`, the source filename and the underlying error; only the `N-1` earlier
lines were written, the failed line is not skipped and no later line is
processed, and no flush happens. -/
theorem line_failure_aborts (bytes : List Byte) (pre : List (List Byte))
    (bad : List Byte) (rest : List (List Byte))
    (hsplit : splitSegments bytes = pre ++ bad :: rest)
    (hpre : ∀ s ∈ pre, utf8Valid s = true)
    (hbad : utf8Valid bad = false) :
    (runMain (okEnv [bytes])).outcome =
      .panicked (lineMsg (pre.length + 1) mainFilename utf8ErrMsg) ∧
    (runMain (okEnv [bytes])).trace =
      (pre.map fun s => Event.write (stripTerminator s ++ [nl])) ∧
    (runMain (okEnv [bytes])).counter = pre.length + 1 := by
  have hbaditem : segToItem bad = .err utf8ErrMsg := by simp [segToItem, hbad]
  have hitems : linesItems ([bytes].flatten) none =
      pre.map segToItem ++ (LineItem.err utf8ErrMsg :: rest.map segToItem) := by
    simp only [linesItems, List.flatten_cons, List.flatten_nil, List.append_nil,
      hsplit, List.map_append, List.map_cons, hbaditem]
  have happ := runLines_append_ok mainFilename pre
    (LineItem.err utf8ErrMsg :: rest.map segToItem) 0 0 hpre
  have hstep : runLines mainFilename (fun _ => none)
      (LineItem.err utf8ErrMsg :: rest.map segToItem) (0 + pre.length)
      (0 + pre.length) =
      ⟨[], [0 + pre.length + 1], 0 + pre.length + 1,
        some (.panicked (lineMsg (0 + pre.length + 1) mainFilename utf8ErrMsg))⟩ := by
    simp [runLines]
  rw [hstep] at happ
  simp only [runMain, okEnv, hitems, happ]
  simp

/-- Witness for C5: the second of three lines holds the invalid byte `0xFF`. -/
theorem line_failure_aborts_witness :
    (runMain (okEnv [[104, 10, 255, 10, 104, 10]])).outcome =
      .panicked (lineMsg ([[104, 10]].length + 1) mainFilename utf8ErrMsg) ∧
    (runMain (okEnv [[104, 10, 255, 10, 104, 10]])).trace =
      ([[104, 10]].map fun s => Event.write (stripTerminator s ++ [nl])) ∧
    (runMain (okEnv [[104, 10, 255, 10, 104, 10]])).counter =
      [[104, 10]].length + 1 :=
  line_failure_aborts [104, 10, 255, 10, 104, 10] [[104, 10]] [255, 10]
    [[104, 10]] (by decide) (by decide) (by decide)

/-- C6: If opening the input file fails, the process panics immediately with a
diagnostic containing the filename and the underlying error, and no bytes are
written to standard output. -/
theorem open_failure_no_output (e : String) (te : Option String)
    (we : Nat → Option String) (fe : Option String) :
    (runMain ⟨.error e, te, we, fe⟩).outcome =
      .panicked ("Cannnot open file \x27" ++ mainFilename ++
        "\x27, Error: " ++ e) ∧
    (runMain ⟨.error e, te, we, fe⟩).trace = [] ∧
    outputBytes (runMain ⟨.error e, te, we, fe⟩).trace = [] :=
  ⟨rfl, rfl, rfl⟩

theorem runLines_write_fail (f : String) (segs : List (List Byte))
    (k w0 c0 : Nat) (e : String) (hv : ∀ s ∈ segs, utf8Valid s = true)
    (hk : k < segs.length) :
    (runLines f (fun i => if i = w0 + k then some e else none)
      (segs.map segToItem) c0 w0).halted = some (.errored e) := by
  induction segs generalizing k w0 c0 with
  | nil => simp at hk
  | cons s segs ih =>
    have hs : utf8Valid s = true := hv s (List.mem_cons_self _ _)
    have hseg : segToItem s = .ok (stripTerminator s) := by simp [segToItem, hs]
    cases k with
    | zero =>
      simp [List.map_cons, runLines, hseg]
    | succ m =>
      have hne : ¬(w0 = w0 + (m + 1)) := by omega
      simp only [List.map_cons, runLines, hseg, if_neg hne]
      have hfun : (fun i => if i = w0 + (m + 1) then some e else none) =
          (fun i => if i = (w0 + 1) + m then some e else none) := by
        funext i
        have hx : w0 + (m + 1) = (w0 + 1) + m := by omega
        rw [hx]
      rw [hfun]
      exact ih m (w0 + 1) (c0 + 1)
        (fun t ht => hv t (List.mem_cons_of_mem _ ht)) (by simpa using hk)

/-- C7: If a `write_all` call or the final `flush` fails, the error propagates
out of `main` as an ordinary `Err` carrying the underlying I/O error directly
(a non-panic, non-zero termination), not as one of the custom panic messages
used for file-open and line-read failures. -/
theorem write_flush_failure_surfaced (bytes : List Byte) (k : Nat) (e : String)
    (hv : ∀ s ∈ splitSegments bytes, utf8Valid s = true)
    (hk : k < (splitSegments bytes).length) :
    (runMain ⟨.ok [bytes], none,
      (fun i => if i = k then some e else none), none⟩).outcome = .errored e ∧
    (runMain ⟨.ok [bytes], none, fun _ => none, some e⟩).outcome = .errored e := by
  constructor
  · have hfun : (fun i => if i = k then some e else none) =
        (fun i => if i = 0 + k then some e else none) := by
      funext i
      rw [Nat.zero_add]
    have hhl := runLines_write_fail mainFilename (splitSegments bytes) k 0 0 e hv hk
    rw [← hfun] at hhl
    have hitems : linesItems ([bytes].flatten) none =
        (splitSegments bytes).map segToItem := by
      simp [linesItems]
    simp only [runMain, hitems, hhl]
  · have happ := runLines_append_ok mainFilename (splitSegments bytes) [] 0 0 hv
    simp only [List.append_nil, runLines] at happ
    have hitems : linesItems ([bytes].flatten) none =
        (splitSegments bytes).map segToItem := by
      simp [linesItems]
    simp only [runMain, hitems, happ]

/-- Witness for C7: the second write fails, and separately the flush fails. -/
theorem write_flush_failure_surfaced_witness :
    (runMain ⟨.ok [[104, 10, 105, 10]], none,
      (fun i => if i = 1 then some "broken pipe" else none), none⟩).outcome =
      .errored "broken pipe" ∧
    (runMain ⟨.ok [[104, 10, 105, 10]], none, fun _ => none,
      some "broken pipe"⟩).outcome = .errored "broken pipe" :=
  write_flush_failure_surfaced [104, 10, 105, 10] 1 "broken pipe"
    (by decide) (by decide)

/-- C8: In every successful run the output buffer is flushed exactly once, the
flush is the last output event (so it happens only after every line has been
written), and success implies the flush itself succeeded. -/
theorem flush_once_after_all_lines (env : Env)
    (h : (runMain env).outcome = .success) :
    env.flushErr = none ∧
    (∃ ws, (∀ ev ∈ ws, ev.isWrite = true) ∧
      (runMain env).trace = ws ++ [Event.flush]) ∧
    (runMain env).trace.count Event.flush = 1 := by
  rcases env with ⟨o, te, we, fe⟩
  cases o with
  | error e => simp [runMain] at h
  | ok members =>
    obtain ⟨_, _, htr, hhl⟩ :=
      runLines_shape mainFilename we (linesItems members.flatten te) 0 0
    rcases hh : (runLines mainFilename we (linesItems members.flatten te) 0 0).halted
      with _ | o'
    · cases fe with
      | some e => simp [runMain, hh] at h
      | none =>
        have htrace : (runMain ⟨.ok members, te, we, none⟩).trace =
            (runLines mainFilename we (linesItems members.flatten te) 0 0).trace ++
              [Event.flush] := by
          simp [runMain, hh]
        refine ⟨rfl, ⟨_, htr, htrace⟩, ?_⟩
        rw [htrace, List.count_append]
        have hzero : (runLines mainFilename we
            (linesItems members.flatten te) 0 0).trace.count Event.flush = 0 := by
          rw [List.count_eq_zero]
          intro hmem
          have hw := htr _ hmem
          simp [Event.isWrite] at hw
        simp [hzero]
    · have ho : (runMain ⟨.ok members, te, we, fe⟩).outcome = o' := by
        simp [runMain, hh]
      rw [ho] at h
      rcases hhl o' hh with ⟨m, rfl⟩ | ⟨m, rfl⟩ <;> simp at h

/-- Witness for C8 at a concrete successful run. -/
theorem flush_once_after_all_lines_witness :
    (okEnv [[104, 10]]).flushErr = none ∧
    (∃ ws, (∀ ev ∈ ws, ev.isWrite = true) ∧
      (runMain (okEnv [[104, 10]])).trace = ws ++ [Event.flush]) ∧
    (runMain (okEnv [[104, 10]])).trace.count Event.flush = 1 :=
  flush_once_after_all_lines (okEnv [[104, 10]]) (by decide)

/-- C9: The pipeline is deterministic: runs on equal environments (same input
file contents and same I/O behavior) produce identical event traces, identical
standard-output bytes and the same exit outcome. -/
theorem run_deterministic (e1 e2 : Env) (h : e1 = e2) :
    runMain e1 = runMain e2 ∧
    outputBytes (runMain e1).trace = outputBytes (runMain e2).trace ∧
    (runMain e1).outcome = (runMain e2).outcome := by
  subst h
  exact ⟨rfl, rfl, rfl⟩

/-- Witness for C9 at a concrete environment. -/
theorem run_deterministic_witness :
    runMain (okEnv [[104, 10]]) = runMain (okEnv [[104, 10]]) ∧
    outputBytes (runMain (okEnv [[104, 10]])).trace =
      outputBytes (runMain (okEnv [[104, 10]])).trace ∧
    (runMain (okEnv [[104, 10]])).outcome =
      (runMain (okEnv [[104, 10]])).outcome :=
  run_deterministic (okEnv [[104, 10]]) (okEnv [[104, 10]]) rfl

/-- C10: A non-empty decompressed stream with no trailing terminator still has
its trailing partial segment produced as a line, counted, and written with a
`\n` appended, so the output of any non-empty valid stream ends with `\n`;
for an empty decompressed stream the program writes nothing, the counter stays
zero, and the run succeeds. -/
theorem trailing_partial_and_empty_stream (s : List Byte)
    (hv : ∀ seg ∈ splitSegments s, utf8Valid seg = true) :
    (s = [] →
      (runMain (okEnv [s])).trace = [Event.flush] ∧
      (runMain (okEnv [s])).counter = 0 ∧
      (runMain (okEnv [s])).outcome = .success ∧
      outputBytes (runMain (okEnv [s])).trace = []) ∧
    (s ≠ [] →
      (runMain (okEnv [s])).outcome = .success ∧
      (runMain (okEnv [s])).counter = (splitSegments s).length ∧
      (outputBytes (runMain (okEnv [s])).trace).getLast? = some nl) := by
  rw [runMain_ok_stream s hv]
  constructor
  · intro hs
    subst hs
    simp [splitSegments, outputBytes]
  · intro hs
    refine ⟨rfl, rfl, ?_⟩
    show (outputBytes (((splitSegments s).map fun seg =>
      Event.write (stripTerminator seg ++ [nl])) ++ [Event.flush])).getLast? = some nl
    rw [outputBytes_writes]
    apply flatten_getLast_nl
    · cases s with
      | nil => exact absurd rfl hs
      | cons b rest =>
        intro hmap
        exact splitSegments_ne_nil b rest (List.map_eq_nil_iff.mp hmap)
    · intro p hp
      obtain ⟨seg, hseg, rfl⟩ := List.mem_map.mp hp
      exact List.getLast?_concat _

/-- Witness for C10 at the stream `"hi"` with no trailing terminator. -/
theorem trailing_partial_and_empty_stream_witness :
    (([104, 105] : List Byte) = [] →
      (runMain (okEnv [[104, 105]])).trace = [Event.flush] ∧
      (runMain (okEnv [[104, 105]])).counter = 0 ∧
      (runMain (okEnv [[104, 105]])).outcome = .success ∧
      outputBytes (runMain (okEnv [[104, 105]])).trace = []) ∧
    (([104, 105] : List Byte) ≠ [] →
      (runMain (okEnv [[104, 105]])).outcome = .success ∧
      (runMain (okEnv [[104, 105]])).counter =
        (splitSegments [104, 105]).length ∧
      (outputBytes (runMain (okEnv [[104, 105]])).trace).getLast? =
        some nl) :=
  trailing_partial_and_empty_stream [104, 105] (by decide)
